import Mathlib

/-!
Verification of the `@poppinss/defer` queue engine.

The development shallowly embeds the source of `src/queue.ts` and
`src/types.ts`: task shapes, the worker installed by the `DeferQueue`
constructor, the internal completion handler, the notifier waiting list,
and the public control surface.  A task body (a zero-argument asynchronous
operation) is modelled by the settled result it eventually produces, an
`Except` value: `ok` for a returned response, `error` for a thrown or
rejected failure.  Hook invocations are recorded in logs together with a
flag telling whether the hook is assigned, and a `Deferred` resolution is
recorded as a `(notifier id, settled result)` pair, kept separate from the
(never used) reject channel.

The bounded executor (`fastq`) is an external collaborator that is not
part of this repository; its required contract is modelled from the spec
(section 6): bounded concurrency, FIFO pending order with push-back and
unshift-front, pause and resume, killAndDrain, idle and length
introspection, and a settable drain callback slot.
-/

namespace Defer

instance instDecEqExcept {ε α : Type} [DecidableEq ε] [DecidableEq α] :
    DecidableEq (Except ε α) := fun x y =>
  match x, y with
  | .ok a, .ok b =>
    if h : a = b then isTrue (by rw [h]) else isFalse (by simp [h])
  | .ok _, .error _ => isFalse (by simp)
  | .error _, .ok _ => isFalse (by simp)
  | .error a, .error b =>
    if h : a = b then isTrue (by rw [h]) else isFalse (by simp [h])

/-- `DeferCallback` (src/types.ts): a task is either a bare callable, whose
`name` is the identifier the callable itself declares (possibly empty), or a
named record with an explicit `name` field and a `run` method.  The body is
the settled result the operation eventually produces. -/
inductive DeferCallback (ε α : Type) where
  | fn (name : String) (body : Except ε α)
  | obj (name : String) (run : Except ε α)
  deriving DecidableEq

/-- The `cb.name` read by the worker: the declared identifier of a callable,
or the explicit `name` field of a named record. -/
def DeferCallback.name : DeferCallback ε α → String
  | .fn n _ => n
  | .obj n _ => n

/-- The operation the worker awaits:
`typeof cb === "function" ? cb() : cb.run()`. -/
def DeferCallback.invoke : DeferCallback ε α → Except ε α
  | .fn _ b => b
  | .obj _ r => r

/-- The `taskResult` object built by the worker and passed to `done`:
`{name, response}` on success, `{name}` (no response) on failure. -/
structure TaskResult (α : Type) where
  name : String
  response : Option α
  deriving DecidableEq

/-- The fastq worker installed by the `DeferQueue` constructor
(src/queue.ts): it awaits the task operation, then calls
`done(null, {name, response})` on success and `done(error, {name})` when the
operation throws or rejects.  The returned pair is the `(error, taskResult)`
argument pair handed to the completion callback. -/
def worker (cb : DeferCallback ε α) : Option ε × TaskResult α :=
  match cb.invoke with
  | .ok response => (none, ⟨cb.name, some response⟩)
  | .error e => (some e, ⟨cb.name, none⟩)

/-- `PromiseSettledResult`: the value a notifier is resolved with. -/
inductive SettledResult (ε α : Type) where
  | fulfilled (value : TaskResult α)
  | rejected (reason : ε)
  deriving DecidableEq

/-- The settled result the completion handler produces for a task, as a
function of the worker output on that task. -/
def settledOf (t : DeferCallback ε α) : SettledResult ε α :=
  match t.invoke with
  | .ok r => .fulfilled ⟨t.name, some r⟩
  | .error e => .rejected e

/-- The engine-owned state of a `DeferQueue` instance that is independent of
the executor: the waiting list of notifiers (each represented by the id the
engine allocated for it, in FIFO order), the id counter, the record of which
hooks are assigned, the logs of hook invocations, and the record of every
`Deferred` settlement.  `resolutions` records uses of the resolve capability
and `rejections` uses of the reject capability, so that the two channels of
`Deferred` stay distinguishable. -/
structure EngineState (ε α : Type) where
  nextId : Nat := 0
  notifiers : List Nat := []
  resolutions : List (Nat × SettledResult ε α) := []
  rejections : List (Nat × ε) := []
  onErrorAssigned : Bool := false
  taskCompletedAssigned : Bool := false
  taskAddedAssigned : Bool := false
  onErrorLog : List (ε × TaskResult α) := []
  taskCompletedLog : List (TaskResult α) := []
  taskAddedLog : List (DeferCallback ε α) := []
  deriving DecidableEq

/-- The internal completion handler (the private `#notifier` closure of
src/queue.ts), invoked by the executor once per task with either an error or
a result.  It shifts the oldest pending notifier off the waiting list; on
failure it notifies `onError` (if assigned) and resolves the popped notifier
with `{status: "rejected", reason: error}`; on success it notifies
`taskCompleted` (if assigned) and resolves the popped notifier with
`{status: "fulfilled", value: taskResult}`.  The reject capability of the
popped `Deferred` is never used. -/
def notifierHandler (s : EngineState ε α) (error : Option ε)
    (taskResult : TaskResult α) : EngineState ε α :=
  let awaitingNotifier := s.notifiers.head?
  let rest := s.notifiers.tail
  match error with
  | some e =>
    { s with
      notifiers := rest
      onErrorLog :=
        if s.onErrorAssigned then s.onErrorLog ++ [(e, taskResult)]
        else s.onErrorLog
      resolutions :=
        match awaitingNotifier with
        | some id => s.resolutions ++ [(id, .rejected e)]
        | none => s.resolutions }
  | none =>
    { s with
      notifiers := rest
      taskCompletedLog :=
        if s.taskCompletedAssigned then s.taskCompletedLog ++ [taskResult]
        else s.taskCompletedLog
      resolutions :=
        match awaitingNotifier with
        | some id => s.resolutions ++ [(id, .fulfilled taskResult)]
        | none => s.resolutions }

/-- `createNotifier` (src/queue.ts): allocates a fresh `Deferred`, appends it
to the waiting list, and returns its awaitable handle (here: its id). -/
def createNotifier (s : EngineState ε α) : EngineState ε α × Nat :=
  ({ s with
      nextId := s.nextId + 1
      notifiers := s.notifiers ++ [s.nextId] }, s.nextId)

end Defer

namespace Defer

/-- An engine-level event: a `createNotifier` call, or a task completion
delivered to the internal completion handler. -/
inductive EngineEvent (ε α : Type) where
  | create
  | complete (error : Option ε) (taskResult : TaskResult α)
  deriving DecidableEq

/-- One engine-level event applied to the engine state. -/
def engineStep (s : EngineState ε α) : EngineEvent ε α → EngineState ε α
  | .create => (createNotifier s).1
  | .complete e tr => notifierHandler s e tr

/-- A sequence of engine-level events applied in order. -/
def engineRun (s : EngineState ε α) (evs : List (EngineEvent ε α)) :
    EngineState ε α :=
  evs.foldl engineStep s

/-- The resolutions recorded for notifier `n`. -/
def resFor (s : EngineState ε α) (n : Nat) : List (Nat × SettledResult ε α) :=
  s.resolutions.filter (fun p => p.1 = n)

/-- The payloads of the completion events of a trace, in order. -/
def completes (evs : List (EngineEvent ε α)) :
    List (Option ε × TaskResult α) :=
  evs.filterMap (fun ev =>
    match ev with
    | .create => none
    | .complete e tr => some (e, tr))

/-- Well-formedness of an engine state: the waiting list has no duplicate
ids and every id in it is below the id counter.  This holds for every state
reachable from a fresh engine. -/
def WF (s : EngineState ε α) : Prop :=
  s.notifiers.Nodup ∧ ∀ m ∈ s.notifiers, m < s.nextId

/-- Whether an engine-level event is a task completion. -/
def isCompletion : EngineEvent ε α → Bool
  | .create => false
  | .complete _ _ => true

/-- Indices of the create events of a trace, in order.  From a fresh engine
the notifier created by the (n+1)-st create event gets id `n`, so notifier
`n` is created at event index `(createIndices evs)[n]?`. -/
def createIndices (evs : List (EngineEvent ε α)) : List Nat :=
  (evs.enum.filter (fun p => !(isCompletion p.2))).map Prod.fst

/-- Indices of the completion events lying strictly after index `i`. -/
def completionIndicesAfter (evs : List (EngineEvent ε α)) (i : Nat) :
    List Nat :=
  (evs.enum.filter (fun p => decide (i < p.1) && isCompletion p.2)).map
    Prod.fst

/-- Ids of the notifiers resolved over a trace run from a fresh engine. -/
def resolvedIds (evs : List (EngineEvent ε α)) : List Nat :=
  (engineRun {} evs).resolutions.map Prod.fst

/-- Notifier `n` receives its resolution during event `k` of the trace, the
trace being run from a fresh engine. -/
def resolvedDuring (evs : List (EngineEvent ε α)) (k n : Nat) : Prop :=
  n ∈ resolvedIds (evs.take (k + 1)) ∧ n ∉ resolvedIds (evs.take k)

instance instDecResolvedDuring {ε α : Type} [DecidableEq ε] [DecidableEq α]
    (evs : List (EngineEvent ε α)) (k n : Nat) :
    Decidable (resolvedDuring evs k n) :=
  inferInstanceAs
    (Decidable (n ∈ resolvedIds (evs.take (k + 1))
      ∧ n ∉ resolvedIds (evs.take k)))

/-- The matching half of claim C2 read literally, specialised to `String`
errors and `Nat` responses: for every sequence of createNotifier calls and
task completions, whenever the notifier with id `n` (the (n+1)-st one
created) is resolved at all, the event resolving it is the (n+1)-st
completion occurring after its creation. -/
def claimTwoLiteral : Prop :=
  ∀ (evs : List (EngineEvent String Nat)) (n k ci : Nat),
    (createIndices evs)[n]? = some ci →
    resolvedDuring evs k n →
    (completionIndicesAfter evs ci)[n]? = some k

/-- A trace interleaving creations and completions: create, complete,
create, complete. -/
def evsTwo : List (EngineEvent String Nat) :=
  [.create, .complete none ⟨"a", some 0⟩,
   .create, .complete none ⟨"b", some 1⟩]

/-- Modelled from the spec: the state of a full queue.  The engine part is
the `DeferQueue` state embedded above; the rest models the bounded executor
(fastq), an external collaborator of which the repository fixes only the
required contract (spec section 6): `pending` is the FIFO list of admitted
not-yet-started tasks, `running` the in-flight tasks in start order,
`paused` the pause flag, `concurrency` the configured ceiling, and
`fastDrain` the settable drain callback slot (`none` is the initial noop).
Caller-assigned drain hooks are identified by numbers; `drainedLog` records
their invocations in order.  `savedDrain` is the private `#drainCallback`
reference of `DeferQueue`, the last explicitly assigned drain hook.
`startLog` records the names of tasks in the order the executor starts
them. -/
structure Sys (ε α : Type) where
  engine : EngineState ε α := {}
  pending : List (DeferCallback ε α) := []
  running : List (DeferCallback ε α) := []
  paused : Bool := false
  concurrency : Nat := 10
  fastDrain : Option Nat := none
  savedDrain : Option Nat := none
  drainedLog : List Nat := []
  startLog : List String := []
  deriving DecidableEq

/-- The `DeferQueue` constructor: a fresh queue wrapping a fresh executor
with concurrency `options.concurrency ?? 10`. -/
def newDeferQueue (ε α : Type) (opts : Option Nat) : Sys ε α :=
  { concurrency := opts.getD 10 }

/-- Modelled from the spec: the executor start loop, with explicit fuel.
While the queue is not paused, a pending task exists and fewer than
`concurrency` tasks are running, the front pending task is started. -/
def scheduleFuel : Nat → Sys ε α → Sys ε α
  | 0, s => s
  | fuel + 1, s =>
    if s.paused then s
    else
      match s.pending with
      | [] => s
      | t :: rest =>
        if s.running.length < s.concurrency then
          scheduleFuel fuel
            { s with
                pending := rest
                running := s.running ++ [t]
                startLog := s.startLog ++ [t.name] }
        else s

/-- Modelled from the spec: start as many pending tasks as the concurrency
ceiling allows. -/
def Sys.schedule (s : Sys ε α) : Sys ε α :=
  scheduleFuel s.pending.length s

/-- `push` (src/queue.ts): invoke the `taskAdded` hook (if assigned) with
the original submitted task, then hand the task to the back of the executor
with the internal completion handler as its callback.  Returns the queue
itself; here the updated state is returned. -/
def Sys.push (s : Sys ε α) (t : DeferCallback ε α) : Sys ε α :=
  let s1 :=
    if s.engine.taskAddedAssigned then
      { s with engine :=
          { s.engine with taskAddedLog := s.engine.taskAddedLog ++ [t] } }
    else s
  Sys.schedule { s1 with pending := s1.pending ++ [t] }

/-- `unshift` (src/queue.ts): same as `push` but the task goes to the front
of the pending order. -/
def Sys.unshift (s : Sys ε α) (t : DeferCallback ε α) : Sys ε α :=
  let s1 :=
    if s.engine.taskAddedAssigned then
      { s with engine :=
          { s.engine with taskAddedLog := s.engine.taskAddedLog ++ [t] } }
    else s
  Sys.schedule { s1 with pending := t :: s1.pending }

/-- `pause` (src/queue.ts): halt the start of new executions. -/
def Sys.pause (s : Sys ε α) : Sys ε α :=
  { s with paused := true }

/-- `resume` (src/queue.ts): re-enable execution of pending tasks. -/
def Sys.resume (s : Sys ε α) : Sys ε α :=
  Sys.schedule { s with paused := false }

/-- `size` (src/queue.ts): the executor `length()`, the count of admitted
tasks not yet started. -/
def Sys.size (s : Sys ε α) : Nat :=
  s.pending.length

/-- `isIdle` (src/queue.ts): the executor `idle()`, true iff no task is
pending and none is running. -/
def Sys.isIdle (s : Sys ε α) : Bool :=
  s.pending.isEmpty && s.running.isEmpty

/-- `createNotifier` (src/queue.ts) at the queue level. -/
def Sys.createNotifier (s : Sys ε α) : Sys ε α × Nat :=
  (({ s with engine := (Defer.createNotifier s.engine).1 }),
    (Defer.createNotifier s.engine).2)

/-- Modelled from the spec: the executor invoking its current drain
callback slot (a no-op when no hook is assigned). -/
def invokeDrain (s : Sys ε α) : Sys ε α :=
  match s.fastDrain with
  | some k => { s with drainedLog := s.drainedLog ++ [k] }
  | none => s

/-- The `drained` setter (src/queue.ts): remember the callback in the
private `#drainCallback` slot and install it as the executor drain
callback. -/
def Sys.setDrained (s : Sys ε α) (k : Nat) : Sys ε α :=
  { s with savedDrain := some k, fastDrain := some k }

/-- `kill` (src/queue.ts): call the executor `killAndDrain()` — modelled
from the spec, it discards all pending tasks, invokes the current drain
callback once, and resets the drain slot to a no-op — then restore the
saved `#drainCallback`, if any, into the executor drain slot. -/
def Sys.kill (s : Sys ε α) : Sys ε α :=
  let s1 := { invokeDrain { s with pending := [] } with fastDrain := none }
  match s1.savedDrain with
  | some cb => { s1 with fastDrain := some cb }
  | none => s1

/-- Modelled from the spec: the oldest running task settles.  The executor
calls the task callback — the engine's internal completion handler — with
the worker output, then starts the next pending task if allowed, and fires
the drain callback when the executor has become fully idle. -/
def Sys.settle (s : Sys ε α) : Sys ε α :=
  match s.running with
  | [] => s
  | t :: rest =>
    let s1 := Sys.schedule
      { s with
          running := rest
          engine := notifierHandler s.engine (worker t).1 (worker t).2 }
    if s1.pending.isEmpty && s1.running.isEmpty then invokeDrain s1 else s1

/-- Settle repeatedly (with fuel) until no task is running. -/
def settleAll : Nat → Sys ε α → Sys ε α
  | 0, s => s
  | n + 1, s => if s.running.isEmpty then s else settleAll n s.settle

/-- Run the queue to quiescence: settle as many times as there are admitted
tasks. -/
def runAll (s : Sys ε α) : Sys ε α :=
  settleAll (s.pending.length + s.running.length) s

/-- The `{v: 1}` response record of the C5 scenario. -/
structure VRec where
  v : Nat
  deriving DecidableEq

/-- Task A of the C5 scenario: succeeds with `{v: 1}`. -/
def taskA : DeferCallback String VRec :=
  .fn "A" (.ok ⟨1⟩)

/-- Task B of the C5 scenario: fails with the error "boom". -/
def taskB : DeferCallback String VRec :=
  .fn "B" (.error "boom")

/-- The C5 scenario start state: a queue with concurrency 1 whose onError
and taskCompleted hooks are assigned. -/
def scenarioStart : Sys String VRec :=
  { engine := { onErrorAssigned := true, taskCompletedAssigned := true }
    concurrency := 1 }

/-- The C5 scenario run: create two notifiers in advance, push A then B,
and let both complete (concurrency 1 runs them one after the other). -/
def scenarioEnd : Sys String VRec :=
  (((((scenarioStart.createNotifier).1.createNotifier).1.push taskA).push
    taskB).settle).settle

end Defer

namespace Defer

theorem engineStep_WF (s : EngineState ε α) (ev : EngineEvent ε α)
    (h : WF s) : WF (engineStep s ev) := by
  obtain ⟨hnd, hlt⟩ := h
  cases ev with
  | create =>
    refine ⟨?_, ?_⟩
    · simp only [engineStep, createNotifier]
      refine List.Nodup.append hnd (List.nodup_singleton _) ?_
      intro a ha hb
      simp only [List.mem_singleton] at hb
      subst hb
      exact Nat.ne_of_lt (hlt _ ha) rfl
    · intro m hm
      simp only [engineStep, createNotifier, List.mem_append,
        List.mem_singleton] at hm
      rcases hm with hm | hm
      · exact Nat.lt_succ_of_lt (hlt m hm)
      · subst hm; exact Nat.lt_succ_self _
  | complete e tr =>
    cases e with
    | some e =>
      refine ⟨(List.tail_sublist _).nodup hnd, ?_⟩
      intro m hm
      exact hlt m (List.mem_of_mem_tail hm)
    | none =>
      refine ⟨(List.tail_sublist _).nodup hnd, ?_⟩
      intro m hm
      exact hlt m (List.mem_of_mem_tail hm)

theorem notifierHandler_notifiers (s : EngineState ε α) (e : Option ε)
    (tr : TaskResult α) :
    (notifierHandler s e tr).notifiers = s.notifiers.tail := by
  cases e <;> rfl

theorem notifierHandler_nextId (s : EngineState ε α) (e : Option ε)
    (tr : TaskResult α) :
    (notifierHandler s e tr).nextId = s.nextId := by
  cases e <;> rfl

theorem notifierHandler_rejections (s : EngineState ε α) (e : Option ε)
    (tr : TaskResult α) :
    (notifierHandler s e tr).rejections = s.rejections := by
  cases e <;> rfl

theorem notifierHandler_resolutions (s : EngineState ε α) (e : Option ε)
    (tr : TaskResult α) :
    (notifierHandler s e tr).resolutions = s.resolutions ++
      (match s.notifiers.head?, e with
       | some id, some err => [(id, SettledResult.rejected err)]
       | some id, none => [(id, SettledResult.fulfilled tr)]
       | none, _ => []) := by
  rcases hl : s.notifiers with _ | ⟨hd, tl⟩ <;> cases e <;>
    simp [notifierHandler, hl]

theorem notifierHandler_onErrorLog (s : EngineState ε α) (e : Option ε)
    (tr : TaskResult α) :
    (notifierHandler s e tr).onErrorLog = s.onErrorLog ++
      (match e with
       | some err => if s.onErrorAssigned then [(err, tr)] else []
       | none => []) := by
  cases e <;> simp [notifierHandler] <;> split <;> simp

theorem notifierHandler_taskCompletedLog (s : EngineState ε α) (e : Option ε)
    (tr : TaskResult α) :
    (notifierHandler s e tr).taskCompletedLog = s.taskCompletedLog ++
      (match e with
       | some _ => []
       | none => if s.taskCompletedAssigned then [tr] else []) := by
  cases e <;> simp [notifierHandler] <;> split <;> simp

/-- A notifier that is not in the waiting list and whose id is below the id
counter never receives another resolution. -/
theorem engineRun_stable (evs : List (EngineEvent ε α)) (s : EngineState ε α)
    (n : Nat) (hmem : n ∉ s.notifiers) (hlt : n < s.nextId) :
    resFor (engineRun s evs) n = resFor s n := by
  induction evs generalizing s with
  | nil => rfl
  | cons ev rest ih =>
    cases ev with
    | create =>
      have h1 : engineRun s (EngineEvent.create :: rest)
          = engineRun (engineStep s .create) rest := rfl
      rw [h1, ih]
      · rfl
      · simp only [engineStep, createNotifier, List.mem_append,
          List.mem_singleton]
        rintro (h | h)
        · exact hmem h
        · exact absurd h (Nat.ne_of_lt hlt)
      · exact Nat.lt_succ_of_lt hlt
    | complete e tr =>
      have h1 : engineRun s (EngineEvent.complete e tr :: rest)
          = engineRun (engineStep s (.complete e tr)) rest := rfl
      rw [h1, ih]
      · show resFor (notifierHandler s e tr) n = resFor s n
        cases hl : s.notifiers with
        | nil =>
          cases e <;>
            simp [notifierHandler, resFor, hl]
        | cons hd tl =>
          have hne : hd ≠ n := by
            intro heq
            exact hmem (heq ▸ (hl ▸ List.mem_cons_self hd tl))
          cases e <;>
            simp [notifierHandler, resFor, hl, List.filter_append, hne]
      · show n ∉ (notifierHandler s e tr).notifiers
        have : (notifierHandler s e tr).notifiers = s.notifiers.tail := by
          cases e <;> rfl
        rw [this]
        intro hc
        exact hmem (List.mem_of_mem_tail hc)
      · show n < (notifierHandler s e tr).nextId
        have : (notifierHandler s e tr).nextId = s.nextId := by
          cases e <;> rfl
        rw [this]; exact hlt

/-- C2, amended: positional matching of notifiers with completions: if
notifier `n` sits at position `i` of the waiting list and has no recorded
resolution, then over any subsequent event sequence it is resolved exactly
once, by the completion at position `i` among the subsequent completions,
with exactly that completion's outcome (rejected on error, fulfilled on
success, whichever task it belongs to); and if fewer than `i + 1`
completions follow, it is never resolved.  In particular a notifier is not
in general resolved by the Nth completion counted from its own creation:
completions that popped earlier notifiers before it was created shift the
count, which is what the counterexample exhibits. -/
theorem engineRun_positional (evs : List (EngineEvent ε α)) :
    ∀ (s : EngineState ε α) (i n : Nat), WF s → s.notifiers[i]? = some n →
    resFor s n = [] →
    resFor (engineRun s evs) n =
      (match (completes evs)[i]? with
      | none => []
      | some (some e, _) => [(n, SettledResult.rejected e)]
      | some (none, tr) => [(n, SettledResult.fulfilled tr)]) := by
  induction evs with
  | nil =>
    intro s i n hWF hn hfresh
    simpa [engineRun, completes] using hfresh
  | cons ev rest ih =>
    intro s i n hWF hn hfresh
    have hrun : engineRun s (ev :: rest) = engineRun (engineStep s ev) rest :=
      rfl
    cases ev with
    | create =>
      rw [hrun]
      have hlen : i < s.notifiers.length := by
        rcases List.getElem?_eq_some_iff.mp hn with ⟨h, _⟩
        exact h
      have hn2 : (engineStep s .create).notifiers[i]? = some n := by
        show (s.notifiers ++ [s.nextId])[i]? = some n
        rw [List.getElem?_append_left hlen]
        exact hn
      have hf2 : resFor (engineStep s .create) n = [] := by
        simpa [resFor, engineStep, createNotifier] using hfresh
      have hcomp : completes (EngineEvent.create :: rest) = completes rest := by
        simp [completes]
      rw [hcomp]
      exact ih _ i n (engineStep_WF s _ hWF) hn2 hf2
    | complete e tr =>
      rw [hrun]
      rcases hl : s.notifiers with _ | ⟨hd, tl⟩
      · rw [hl] at hn
        simp at hn
      · have hnd : hd ∉ tl := by
          have := hWF.1
          rw [hl] at this
          exact (List.nodup_cons.mp this).1
        cases i with
        | zero =>
          rw [hl] at hn
          simp only [List.getElem?_cons_zero, Option.some.injEq] at hn
          subst hn
          have hnotin : hd ∉ (engineStep s (.complete e tr)).notifiers := by
            show hd ∉ (notifierHandler s e tr).notifiers
            rw [notifierHandler_notifiers, hl]
            exact hnd
          have hlt2 : hd < (engineStep s (.complete e tr)).nextId := by
            show hd < (notifierHandler s e tr).nextId
            rw [notifierHandler_nextId]
            exact hWF.2 hd (by rw [hl]; exact List.mem_cons_self hd tl)
          have hstable := engineRun_stable rest _ hd hnotin hlt2
          rw [hstable]
          have hres : resFor (engineStep s (.complete e tr)) hd
              = resFor s hd ++ ((match s.notifiers.head?, e with
                | some id, some err => [(id, SettledResult.rejected err)]
                | some id, none => [(id, SettledResult.fulfilled tr)]
                | none, _ => []).filter (fun p => p.1 = hd)) := by
            show resFor (notifierHandler s e tr) hd = _
            simp [resFor, notifierHandler_resolutions, List.filter_append]
          rw [hres, hfresh, hl]
          cases e <;> simp [completes]
        | succ j =>
          rw [hl] at hn
          rw [List.getElem?_cons_succ] at hn
          have hmem : n ∈ tl := List.getElem?_mem hn
          have hne : hd ≠ n := fun h => hnd (h ▸ hmem)
          have hn2 : (engineStep s (.complete e tr)).notifiers[j]? = some n := by
            show (notifierHandler s e tr).notifiers[j]? = some n
            rw [notifierHandler_notifiers, hl]
            exact hn
          have hf2 : resFor (engineStep s (.complete e tr)) n = [] := by
            show resFor (notifierHandler s e tr) n = []
            simp only [resFor, notifierHandler_resolutions, List.filter_append]
            rw [hl]
            have h0 : resFor s n = [] := hfresh
            simp only [resFor] at h0
            rw [h0]
            cases e <;> simp [hne]
          have hcomp :
              (completes (EngineEvent.complete e tr :: rest))[j + 1]?
              = (completes rest)[j]? := by
            simp [completes]
          rw [hcomp]
          exact ih _ j n (engineStep_WF s _ hWF) hn2 hf2

/-- C1: for every completion delivered to the internal completion handler,
the handler pops the oldest pending notifier off the waiting list (none if
the list is empty), exactly one of the onError / taskCompleted hooks is
invoked (onError on failure, taskCompleted on success, and only if that hook
is assigned), the reject capability of the popped Deferred is never used,
and the popped notifier, if any, is always resolved: with
`{status: "rejected", reason: error}` on failure and
`{status: "fulfilled", value: {name, response}}` on success. -/
theorem claim1_completion_handler (s : EngineState ε α) (error : Option ε)
    (tr : TaskResult α) :
    (notifierHandler s error tr).notifiers = s.notifiers.tail
    ∧ (notifierHandler s error tr).rejections = s.rejections
    ∧ (notifierHandler s error tr).resolutions = s.resolutions ++
        (match s.notifiers.head?, error with
         | some id, some e => [(id, SettledResult.rejected e)]
         | some id, none => [(id, SettledResult.fulfilled tr)]
         | none, _ => [])
    ∧ (notifierHandler s error tr).onErrorLog = s.onErrorLog ++
        (match error with
         | some e => if s.onErrorAssigned then [(e, tr)] else []
         | none => [])
    ∧ (notifierHandler s error tr).taskCompletedLog = s.taskCompletedLog ++
        (match error with
         | some _ => []
         | none => if s.taskCompletedAssigned then [tr] else []) :=
  ⟨notifierHandler_notifiers s error tr,
   notifierHandler_rejections s error tr,
   notifierHandler_resolutions s error tr,
   notifierHandler_onErrorLog s error tr,
   notifierHandler_taskCompletedLog s error tr⟩

/-- C2, counterexample to the claim as stated: in the trace create,
complete, create, complete, the second notifier created (id 1) is resolved
by the second completion (event index 3), which is only the first — not the
second — completion occurring after its creation (event index 2). -/
theorem claim2_counterexample : ¬ claimTwoLiteral := by
  intro h
  have h1 : (createIndices evsTwo)[1]? = some 2 := by decide
  have h2 : resolvedDuring evsTwo 3 1 := by decide
  have h3 := h evsTwo 1 3 2 h1 h2
  have h4 : (completionIndicesAfter evsTwo 2)[1]? = none := by decide
  rw [h4] at h3
  exact Option.noConfusion h3

/-- C2, witness for the amended positional theorem: a notifier at the head
of the waiting list is resolved by the very next completion, with that
completion's outcome. -/
theorem claim2_amended_witness :
    resFor
      (engineRun ({ nextId := 6, notifiers := [5] } : EngineState String Nat)
        [EngineEvent.complete none ⟨"t", some 3⟩]) 5
    = [(5, SettledResult.fulfilled ⟨"t", some 3⟩)] := by
  have hWF : WF ({ nextId := 6, notifiers := [5] } : EngineState String Nat) :=
    ⟨by decide, by decide⟩
  have hn : ({ nextId := 6, notifiers := [5] } :
      EngineState String Nat).notifiers[0]? = some 5 := by decide
  have hf : resFor ({ nextId := 6, notifiers := [5] } :
      EngineState String Nat) 5 = [] := by decide
  have h := engineRun_positional
    [EngineEvent.complete none ⟨"t", some 3⟩] _ 0 5 hWF hn hf
  rw [h]
  rfl

theorem scheduleFuel_paused (fuel : Nat) (s : Sys ε α) (h : s.paused = true) :
    scheduleFuel fuel s = s := by
  cases fuel with
  | zero => rfl
  | succ n => simp [scheduleFuel, h]

theorem schedule_paused (s : Sys ε α) (h : s.paused = true) :
    Sys.schedule s = s :=
  scheduleFuel_paused _ s h

/-- Characterization of the executor start loop: it starts the first
`concurrency - running` pending tasks, in pending order. -/
theorem scheduleFuel_spec (fuel : Nat) :
    ∀ s : Sys ε α, fuel = s.pending.length → s.paused = false →
    scheduleFuel fuel s =
      { s with
          pending := s.pending.drop (s.concurrency - s.running.length)
          running := s.running ++
            s.pending.take (s.concurrency - s.running.length)
          startLog := s.startLog ++
            (s.pending.take (s.concurrency - s.running.length)).map
              DeferCallback.name } := by
  induction fuel with
  | zero =>
    intro s hf hp
    have hnil : s.pending = [] := List.length_eq_zero.mp hf.symm
    obtain ⟨eng, pend, run, p, c, fd, sd, dl, sl⟩ := s
    simp only at hnil
    subst hnil
    simp [scheduleFuel]
  | succ n ih =>
    intro s hf hp
    obtain ⟨eng, pend, run, p, c, fd, sd, dl, sl⟩ := s
    simp only at hf hp
    subst hp
    rcases pend with _ | ⟨t, rest⟩
    · simp at hf
    · simp only [List.length_cons, Nat.succ.injEq] at hf
      by_cases hlt : run.length < c
      · have hstep :
            scheduleFuel (n + 1)
              (⟨eng, t :: rest, run, false, c, fd, sd, dl, sl⟩ : Sys ε α)
            = scheduleFuel n
              ⟨eng, rest, run ++ [t], false, c, fd, sd, dl,
                sl ++ [t.name]⟩ := by
          simp [scheduleFuel, hlt]
        rw [hstep, ih _ hf rfl]
        have hcr : c - run.length = (c - (run.length + 1)) + 1 := by omega
        simp only [Sys.mk.injEq, List.length_append, List.length_cons,
          List.length_nil, Nat.zero_add, List.append_assoc, hcr,
          List.take_succ_cons, List.drop_succ_cons, List.map_cons,
          List.singleton_append, List.cons_append, List.nil_append]
      · have hzero : c - run.length = 0 := by omega
        simp [scheduleFuel, hlt, hzero]

theorem schedule_spec (s : Sys ε α) (hp : s.paused = false) :
    Sys.schedule s =
      { s with
          pending := s.pending.drop (s.concurrency - s.running.length)
          running := s.running ++
            s.pending.take (s.concurrency - s.running.length)
          startLog := s.startLog ++
            (s.pending.take (s.concurrency - s.running.length)).map
              DeferCallback.name } :=
  scheduleFuel_spec s.pending.length s rfl hp

theorem invokeDrain_fields (s : Sys ε α) :
    (invokeDrain s).pending = s.pending
    ∧ (invokeDrain s).running = s.running
    ∧ (invokeDrain s).startLog = s.startLog
    ∧ (invokeDrain s).paused = s.paused
    ∧ (invokeDrain s).concurrency = s.concurrency
    ∧ (invokeDrain s).engine = s.engine
    ∧ (invokeDrain s).fastDrain = s.fastDrain
    ∧ (invokeDrain s).savedDrain = s.savedDrain := by
  cases h : s.fastDrain <;> simp [invokeDrain, h]

theorem settle_cons (s : Sys ε α) (t : DeferCallback ε α)
    (rest : List (DeferCallback ε α)) (hr : s.running = t :: rest) :
    s.settle =
      (let s1 := Sys.schedule
        { s with
            running := rest
            engine := notifierHandler s.engine (worker t).1 (worker t).2 }
      if s1.pending.isEmpty && s1.running.isEmpty then invokeDrain s1
      else s1) := by
  rw [Sys.settle.eq_def, hr]

/-- Over a full run of an unpaused queue that is saturated (either the
concurrency ceiling is reached or nothing is pending), tasks start exactly
in pending order and the run ends with no pending and no running task. -/
theorem settleAll_spec (N : Nat) :
    ∀ s : Sys ε α, s.paused = false → 1 ≤ s.concurrency →
    (s.running.length = s.concurrency ∨ s.pending = []) →
    s.pending.length + s.running.length ≤ N →
    (settleAll N s).startLog = s.startLog ++ s.pending.map DeferCallback.name
    ∧ (settleAll N s).pending = [] ∧ (settleAll N s).running = [] := by
  induction N with
  | zero =>
    intro s hp hc hsat htot
    have h1 : s.pending = [] :=
      List.length_eq_zero.mp (by omega)
    have h2 : s.running = [] :=
      List.length_eq_zero.mp (by omega)
    refine ⟨?_, h1, h2⟩
    rw [h1]
    simp [settleAll]
  | succ N ih =>
    intro s hp hc hsat htot
    obtain ⟨eng, pend, run, pstate, c, fd, sd, dl, sl⟩ := s
    simp only at hp hc hsat htot ⊢
    subst hp
    rcases run with _ | ⟨t, rest⟩
    · have hpend : pend = [] := by
        rcases hsat with h | h
        · simp at h
          omega
        · exact h
      subst hpend
      simp [settleAll]
    · have hstep : settleAll (N + 1)
          (⟨eng, pend, t :: rest, false, c, fd, sd, dl, sl⟩ : Sys ε α)
          = settleAll N
            (Sys.settle ⟨eng, pend, t :: rest, false, c, fd, sd, dl, sl⟩) := by
        simp [settleAll]
      rw [hstep]
      have hsettle : Sys.settle
          (⟨eng, pend, t :: rest, false, c, fd, sd, dl, sl⟩ : Sys ε α)
          = (let s1 := Sys.schedule
              ⟨notifierHandler eng (worker t).1 (worker t).2, pend, rest,
                false, c, fd, sd, dl, sl⟩
            if s1.pending.isEmpty && s1.running.isEmpty then invokeDrain s1
            else s1) := rfl
      rw [hsettle]
      rcases pend with _ | ⟨p, ps⟩
      · -- nothing pending: only the released slot changes
        have hs1 : Sys.schedule
            (⟨notifierHandler eng (worker t).1 (worker t).2, [], rest,
              false, c, fd, sd, dl, sl⟩ : Sys ε α)
            = ⟨notifierHandler eng (worker t).1 (worker t).2, [], rest,
              false, c, fd, sd, dl, sl⟩ := rfl
        simp only [hs1]
        by_cases hrest : rest = []
        · subst hrest
          simp only [List.isEmpty_nil, Bool.and_self, if_true]
          have := ih (invokeDrain
              ⟨notifierHandler eng (worker t).1 (worker t).2, [], [],
                false, c, fd, sd, dl, sl⟩)
            (by cases fd <;> simp [invokeDrain])
            (by cases fd <;> simpa [invokeDrain] using hc)
            (by cases fd <;> simp [invokeDrain])
            (by cases fd <;> simp [invokeDrain])
          refine ⟨?_, this.2.1, this.2.2⟩
          rw [this.1]
          cases fd <;> simp [invokeDrain]
        · have hrest2 : rest.isEmpty = false := by
            cases rest with
            | nil => exact absurd rfl hrest
            | cons a l => rfl
          simp only [List.isEmpty_nil, hrest2, Bool.true_and, if_false,
            Bool.false_eq_true]
          have := ih
            (⟨notifierHandler eng (worker t).1 (worker t).2, [], rest,
              false, c, fd, sd, dl, sl⟩ : Sys ε α)
            rfl (by simpa using hc)
            (by simp)
            (by simp at htot ⊢; omega)
          refine ⟨?_, this.2.1, this.2.2⟩
          rw [this.1]
      · -- a task is pending, so the ceiling was reached: start the next one
        have hsatc : rest.length + 1 = c := by
          rcases hsat with h | h
          · simpa using h
          · exact absurd h (List.cons_ne_nil p ps)
        have hone : c - rest.length = 1 := by omega
        have hs1 : Sys.schedule
            (⟨notifierHandler eng (worker t).1 (worker t).2, p :: ps, rest,
              false, c, fd, sd, dl, sl⟩ : Sys ε α)
            = ⟨notifierHandler eng (worker t).1 (worker t).2, ps,
              rest ++ [p], false, c, fd, sd, dl,
              sl ++ [p.name]⟩ := by
          rw [schedule_spec _ rfl]
          simp [hone]
        simp only [hs1]
        have hr2 : (rest ++ [p]).isEmpty = false := by
          cases rest <;> rfl
        simp only [hr2, Bool.and_false, if_false, Bool.false_eq_true]
        have := ih
          (⟨notifierHandler eng (worker t).1 (worker t).2, ps,
            rest ++ [p], false, c, fd, sd, dl, sl ++ [p.name]⟩ : Sys ε α)
          rfl (by simpa using hc)
          (by simp; omega)
          (by simp at htot ⊢; omega)
        refine ⟨?_, this.2.1, this.2.2⟩
        rw [this.1]
        simp

theorem schedule_fields_inv (s : Sys ε α) :
    (Sys.schedule s).engine = s.engine
    ∧ (Sys.schedule s).paused = s.paused
    ∧ (Sys.schedule s).concurrency = s.concurrency
    ∧ (Sys.schedule s).fastDrain = s.fastDrain
    ∧ (Sys.schedule s).savedDrain = s.savedDrain
    ∧ (Sys.schedule s).drainedLog = s.drainedLog := by
  cases hpause : s.paused with
  | false =>
    rw [schedule_spec s hpause]
    exact ⟨rfl, hpause, rfl, rfl, rfl, rfl⟩
  | true =>
    rw [schedule_paused s hpause]
    exact ⟨rfl, hpause, rfl, rfl, rfl, rfl⟩

theorem schedule_total (s : Sys ε α) :
    (Sys.schedule s).pending.length + (Sys.schedule s).running.length
      = s.pending.length + s.running.length := by
  cases hpause : s.paused with
  | true => rw [schedule_paused s hpause]
  | false =>
    rw [schedule_spec s hpause]
    simp only [List.length_drop, List.length_append, List.length_take]
    omega

theorem push_engine (s : Sys ε α) (u : DeferCallback ε α) :
    (s.push u).engine =
      if s.engine.taskAddedAssigned then
        { s.engine with taskAddedLog := s.engine.taskAddedLog ++ [u] }
      else s.engine := by
  by_cases h : s.engine.taskAddedAssigned
  · simp only [Sys.push, if_pos h]
    rw [(schedule_fields_inv _).1]
  · simp only [Sys.push, if_neg h]
    rw [(schedule_fields_inv _).1]

theorem unshift_engine (s : Sys ε α) (u : DeferCallback ε α) :
    (s.unshift u).engine =
      if s.engine.taskAddedAssigned then
        { s.engine with taskAddedLog := s.engine.taskAddedLog ++ [u] }
      else s.engine := by
  by_cases h : s.engine.taskAddedAssigned
  · simp only [Sys.unshift, if_pos h]
    rw [(schedule_fields_inv _).1]
  · simp only [Sys.unshift, if_neg h]
    rw [(schedule_fields_inv _).1]

theorem push_paused (s : Sys ε α) (u : DeferCallback ε α)
    (h : s.paused = true) :
    s.push u =
      { s with
          engine :=
            if s.engine.taskAddedAssigned then
              { s.engine with taskAddedLog := s.engine.taskAddedLog ++ [u] }
            else s.engine
          pending := s.pending ++ [u] } := by
  by_cases ha : s.engine.taskAddedAssigned
  · simp only [Sys.push, if_pos ha]
    exact schedule_paused _ h
  · simp only [Sys.push, if_neg ha]
    exact schedule_paused _ h

theorem unshift_paused (s : Sys ε α) (u : DeferCallback ε α)
    (h : s.paused = true) :
    s.unshift u =
      { s with
          engine :=
            if s.engine.taskAddedAssigned then
              { s.engine with taskAddedLog := s.engine.taskAddedLog ++ [u] }
            else s.engine
          pending := u :: s.pending } := by
  by_cases ha : s.engine.taskAddedAssigned
  · simp only [Sys.unshift, if_pos ha]
    exact schedule_paused _ h
  · simp only [Sys.unshift, if_neg ha]
    exact schedule_paused _ h

theorem kill_spec_assigned (s : Sys ε α) (k : Nat)
    (hfast : s.fastDrain = some k) (hsaved : s.savedDrain = some k) :
    s.kill =
      { s with
          pending := []
          drainedLog := s.drainedLog ++ [k]
          fastDrain := some k } := by
  simp [Sys.kill, invokeDrain, hfast, hsaved]

theorem settle_engine_cons (s : Sys ε α) (t : DeferCallback ε α)
    (rest : List (DeferCallback ε α)) (hr : s.running = t :: rest) :
    (s.settle).engine = notifierHandler s.engine (worker t).1 (worker t).2 := by
  obtain ⟨eng, pend, run, pstate, c, fd, sd, dl, sl⟩ := s
  simp only at hr
  subst hr
  simp only [Sys.settle]
  split
  · rw [(invokeDrain_fields _).2.2.2.2.2.1, (schedule_fields_inv _).1]
  · rw [(schedule_fields_inv _).1]

/-- Starting from an unpaused queue with no running task, scheduling and
then settling everything starts the tasks exactly in pending order and
drains the queue. -/
theorem runAll_startLog (s : Sys ε α) (hp : s.paused = false)
    (hc : 1 ≤ s.concurrency) (hr : s.running = []) :
    (runAll (Sys.schedule s)).startLog
      = s.startLog ++ s.pending.map DeferCallback.name
    ∧ (runAll (Sys.schedule s)).pending = []
    ∧ (runAll (Sys.schedule s)).running = [] := by
  obtain ⟨eng, pend, run, pstate, c, fd, sd, dl, sl⟩ := s
  simp only at hp hc hr
  subst hp
  subst hr
  rw [schedule_spec _ rfl]
  simp only [List.length_nil, Nat.sub_zero, List.nil_append]
  have hsat :
      (pend.take c).length = c ∨ pend.drop c = [] := by
    rcases Nat.le_total pend.length c with h | h
    · exact Or.inr (List.drop_eq_nil_of_le h)
    · left
      rw [List.length_take]
      omega
  have H := settleAll_spec
    ((pend.drop c).length + (pend.take c).length)
    (⟨eng, pend.drop c, pend.take c, false, c, fd, sd, dl,
      sl ++ (pend.take c).map DeferCallback.name⟩ : Sys ε α)
    rfl (by simpa using hc) (by simpa using hsat) (le_refl _)
  simp only [runAll]
  refine ⟨?_, H.2.1, H.2.2⟩
  rw [H.1]
  simp only [List.append_assoc]
  rw [← List.map_append, List.take_append_drop]

/-- C3: a task whose operation throws or whose awaitable rejects is
absorbed at the engine boundary: settling it extends the onError log with
the error and the `{name}` record exactly when the hook is assigned, leaves
the success hook untouched, resolves the popped notifier (if any) with
status rejected carrying that error as reason, and never uses the reject
channel; push and unshift themselves never surface the failure (they leave
the error log and the resolutions unchanged), and all operations are total
functions of the state, so nothing escapes to crash the process. -/
theorem claim3_failure_absorbed (s : Sys ε α) (t : DeferCallback ε α)
    (rest : List (DeferCallback ε α)) (e : ε)
    (hrun : s.running = t :: rest) (herr : t.invoke = Except.error e) :
    (s.settle).engine.onErrorLog = s.engine.onErrorLog ++
        (if s.engine.onErrorAssigned then [(e, ⟨t.name, none⟩)] else [])
    ∧ (s.settle).engine.taskCompletedLog = s.engine.taskCompletedLog
    ∧ (s.settle).engine.resolutions = s.engine.resolutions ++
        (match s.engine.notifiers.head? with
         | some id => [(id, SettledResult.rejected e)]
         | none => [])
    ∧ (s.settle).engine.rejections = s.engine.rejections
    ∧ (∀ u : DeferCallback ε α,
        (s.push u).engine.onErrorLog = s.engine.onErrorLog
        ∧ (s.push u).engine.resolutions = s.engine.resolutions
        ∧ (s.unshift u).engine.onErrorLog = s.engine.onErrorLog
        ∧ (s.unshift u).engine.resolutions = s.engine.resolutions) := by
  have hw : worker t = (some e, ⟨t.name, none⟩) := by
    simp [worker, herr]
  have he := settle_engine_cons s t rest hrun
  rw [hw] at he
  refine ⟨?_, ?_, ?_, ?_, ?_⟩
  · rw [he, notifierHandler_onErrorLog]
  · rw [he, notifierHandler_taskCompletedLog]
    simp
  · rw [he, notifierHandler_resolutions]
    cases s.engine.notifiers.head? <;> rfl
  · rw [he, notifierHandler_rejections]
  · intro u
    have hpu := push_engine s u
    have huu := unshift_engine s u
    by_cases ha : s.engine.taskAddedAssigned
    · rw [if_pos ha] at hpu huu
      exact ⟨by rw [hpu], by rw [hpu], by rw [huu], by rw [huu]⟩
    · rw [if_neg ha] at hpu huu
      exact ⟨by rw [hpu], by rw [hpu], by rw [huu], by rw [huu]⟩

/-- C3, witness: a queue about to settle the failing task B, with the
onError hook assigned, records exactly the boom error with the `{name}`
record. -/
theorem claim3_witness :
    ((({ engine := { onErrorAssigned := true }, running := [taskB] } :
        Sys String VRec)).settle).engine.onErrorLog
      = [("boom", ⟨"B", none⟩)] := by
  have h := claim3_failure_absorbed
    ({ engine := { onErrorAssigned := true }, running := [taskB] } :
      Sys String VRec) taskB [] "boom" rfl rfl
  rw [h.1]
  rfl

/-- C4: kill discards all pending tasks (an immediate size() is 0), fires
the currently installed drain hook exactly once during the call even if
tasks were pending, and restores the executor drain slot to the saved
caller-assigned hook so future natural drains still invoke it. -/
theorem claim4_kill (s : Sys ε α) (k : Nat)
    (hfast : s.fastDrain = some k) (hsaved : s.savedDrain = some k) :
    (s.kill).size = 0
    ∧ (s.kill).pending = []
    ∧ (s.kill).drainedLog = s.drainedLog ++ [k]
    ∧ (s.kill).fastDrain = some k
    ∧ (s.kill).savedDrain = some k := by
  rw [kill_spec_assigned s k hfast hsaved]
  exact ⟨rfl, rfl, rfl, rfl, hsaved⟩

/-- C4, witness: killing a queue with one pending task and drain hook 7
assigned empties it, fires hook 7 once, and keeps hook 7 installed. -/
theorem claim4_witness :
    (Sys.kill ({ pending := [taskA], fastDrain := some 7, savedDrain := some 7 } : Sys String VRec)).size = 0
    ∧ (Sys.kill ({ pending := [taskA], fastDrain := some 7, savedDrain := some 7 } : Sys String VRec)).drainedLog = [7]
    ∧ (Sys.kill ({ pending := [taskA], fastDrain := some 7, savedDrain := some 7 } : Sys String VRec)).fastDrain = some 7 := by
  have h := claim4_kill
    ({ pending := [taskA], fastDrain := some 7, savedDrain := some 7 } :
      Sys String VRec) 7 rfl rfl
  exact ⟨h.1, h.2.2.1.trans rfl, h.2.2.2.1⟩

/-- C5: in the scenario with concurrency 1, hooks assigned, two notifiers
created in advance, task A (succeeds with `{v: 1}`) pushed and then task B
(fails with "boom"), the first notifier resolves fulfilled with
`{name: "A", response: {v: 1}}`, the second resolves rejected with reason
"boom", onError is called exactly once with ("boom", `{name: "B"}`), and
taskCompleted is called exactly once with `{name: "A", response: {v: 1}}`. -/
theorem claim5_scenario :
    scenarioEnd.engine.resolutions
      = [(0, .fulfilled ⟨"A", some ⟨1⟩⟩), (1, .rejected "boom")]
    ∧ scenarioEnd.engine.onErrorLog = [("boom", ⟨"B", none⟩)]
    ∧ scenarioEnd.engine.taskCompletedLog = [⟨"A", some ⟨1⟩⟩] := by
  decide

/-- C6: push and unshift are total (they never throw), invoke the
taskAdded hook with the original submitted value exactly when it is
assigned, return the updated queue itself for chaining, and while the queue
is paused they differ only in where the task is inserted into the pending
order: push appends at the back, unshift at the front, with every other
component of the state identical between the two. -/
theorem claim6_push_unshift (s : Sys ε α) (t : DeferCallback ε α) :
    (s.push t).engine.taskAddedLog = s.engine.taskAddedLog ++
      (if s.engine.taskAddedAssigned then [t] else [])
    ∧ (s.unshift t).engine.taskAddedLog = s.engine.taskAddedLog ++
      (if s.engine.taskAddedAssigned then [t] else [])
    ∧ (s.paused = true →
        (s.push t).pending = s.pending ++ [t]
        ∧ (s.unshift t).pending = t :: s.pending
        ∧ (s.push t).engine = (s.unshift t).engine
        ∧ (s.push t).running = s.running
        ∧ (s.unshift t).running = s.running
        ∧ (s.push t).paused = (s.unshift t).paused
        ∧ (s.push t).concurrency = (s.unshift t).concurrency
        ∧ (s.push t).fastDrain = (s.unshift t).fastDrain
        ∧ (s.push t).savedDrain = (s.unshift t).savedDrain
        ∧ (s.push t).drainedLog = (s.unshift t).drainedLog
        ∧ (s.push t).startLog = (s.unshift t).startLog) := by
  refine ⟨?_, ?_, ?_⟩
  · rw [push_engine]
    by_cases ha : s.engine.taskAddedAssigned
    · rw [if_pos ha, if_pos ha]
    · rw [if_neg ha, if_neg ha]
      simp
  · rw [unshift_engine]
    by_cases ha : s.engine.taskAddedAssigned
    · rw [if_pos ha, if_pos ha]
    · rw [if_neg ha, if_neg ha]
      simp
  · intro hpause
    rw [push_paused s t hpause, unshift_paused s t hpause]
    exact ⟨rfl, rfl, rfl, rfl, rfl, rfl, rfl, rfl, rfl, rfl, rfl⟩

/-- C6, witness: on a paused queue with the taskAdded hook assigned, push
logs the original task and unshift puts it at the front. -/
theorem claim6_witness :
    (({ paused := true, engine := { taskAddedAssigned := true } } :
        Sys String VRec).push taskA).engine.taskAddedLog = [taskA]
    ∧ (({ paused := true, engine := { taskAddedAssigned := true } } :
        Sys String VRec).unshift taskA).pending = [taskA] := by
  have h := claim6_push_unshift
    ({ paused := true, engine := { taskAddedAssigned := true } } :
      Sys String VRec) taskA
  refine ⟨?_, (h.2.2 rfl).2.1⟩
  rw [h.1]
  rfl

/-- C7: normalization happens only when the executor runs the task: the
submitted value is admitted and observed by taskAdded in its original
un-normalized shape, while the worker derives the invoked operation (the
callable itself for a bare callable, the run method for a named record) and
the reported name (the declared identifier of the callable, the explicit
name field of the record) at execution time. -/
theorem claim7_normalization (s : Sys ε α) (t : DeferCallback ε α)
    (nm : String) (b : Except ε α) :
    ((DeferCallback.fn nm b : DeferCallback ε α).name = nm
      ∧ (DeferCallback.fn nm b : DeferCallback ε α).invoke = b)
    ∧ ((DeferCallback.obj nm b : DeferCallback ε α).name = nm
      ∧ (DeferCallback.obj nm b : DeferCallback ε α).invoke = b)
    ∧ worker t = (match t.invoke with
        | .ok r => (none, ⟨t.name, some r⟩)
        | .error e => (some e, ⟨t.name, none⟩))
    ∧ (s.engine.taskAddedAssigned = true →
        (s.push t).engine.taskAddedLog = s.engine.taskAddedLog ++ [t]
        ∧ (s.unshift t).engine.taskAddedLog = s.engine.taskAddedLog ++ [t])
    ∧ (s.paused = true →
        (s.push t).pending = s.pending ++ [t]
        ∧ (s.unshift t).pending = t :: s.pending) := by
  refine ⟨⟨rfl, rfl⟩, ⟨rfl, rfl⟩, rfl, ?_, ?_⟩
  · intro ha
    constructor
    · rw [push_engine, if_pos ha]
    · rw [unshift_engine, if_pos ha]
  · intro hpause
    exact ⟨by rw [push_paused s t hpause],
      by rw [unshift_paused s t hpause]⟩

/-- C7, witness: a named bare callable keeps its declared identifier, and a
pushed named record is admitted in its original shape. -/
theorem claim7_witness :
    (DeferCallback.fn "f" (Except.ok 2) : DeferCallback String Nat).name
      = "f"
    ∧ (({ paused := true } : Sys String Nat).push
        (DeferCallback.obj "g" (Except.ok 3))).pending
      = [DeferCallback.obj "g" (Except.ok 3)] := by
  have h := claim7_normalization ({ paused := true } : Sys String Nat)
    (DeferCallback.obj "g" (Except.ok 3)) "f" (Except.ok 2)
  exact ⟨h.1.1, ((h.2.2.2.2 rfl).1).trans rfl⟩

theorem push_total (s : Sys ε α) (t : DeferCallback ε α) :
    (s.push t).pending.length + (s.push t).running.length
      = s.pending.length + s.running.length + 1 := by
  obtain ⟨eng, pend, run, pstate, c, fd, sd, dl, sl⟩ := s
  by_cases ha : eng.taskAddedAssigned
  · simp only [Sys.push, if_pos ha]
    rw [schedule_total]
    simp only [List.length_append, List.length_cons, List.length_nil]
    omega
  · simp only [Sys.push, if_neg ha]
    rw [schedule_total]
    simp only [List.length_append, List.length_cons, List.length_nil]
    omega

/-- C8: tasks unshifted while paused go to the front of the pending order,
in reverse order of the unshift calls, pushed tasks keep FIFO order, and on
resume the whole backlog starts in exactly that order: the two most recent
unshifts first (last unshift first), then the tasks that were pending at
pause time. -/
theorem claim8_unshift_order (s : Sys ε α) (u1 u2 : DeferCallback ε α)
    (hp : s.paused = true) (hr : s.running = []) (hc : 1 ≤ s.concurrency) :
    ((s.unshift u1).unshift u2).pending = u2 :: u1 :: s.pending
    ∧ (∀ tk : DeferCallback ε α, (s.push tk).pending = s.pending ++ [tk])
    ∧ (runAll (((s.unshift u1).unshift u2).resume)).startLog
        = s.startLog ++ (u2 :: u1 :: s.pending).map DeferCallback.name := by
  have h1 := unshift_paused s u1 hp
  have hA : (s.unshift u1).paused = true := by
    rw [h1]
    exact hp
  have h2 := unshift_paused (s.unshift u1) u2 hA
  have hpend : ((s.unshift u1).unshift u2).pending
      = u2 :: u1 :: s.pending := by
    rw [h2]
    show u2 :: (s.unshift u1).pending = _
    rw [h1]
  have hrun2 : ((s.unshift u1).unshift u2).running = [] := by
    rw [h2]
    show (s.unshift u1).running = []
    rw [h1]
    exact hr
  have hsl2 : ((s.unshift u1).unshift u2).startLog = s.startLog := by
    rw [h2]
    show (s.unshift u1).startLog = _
    rw [h1]
  have hcc2 : ((s.unshift u1).unshift u2).concurrency = s.concurrency := by
    rw [h2]
    show (s.unshift u1).concurrency = _
    rw [h1]
  refine ⟨hpend, ?_, ?_⟩
  · intro tk
    rw [push_paused s tk hp]
  · have hh := runAll_startLog
      { (s.unshift u1).unshift u2 with paused := false }
      rfl
      (by show 1 ≤ ((s.unshift u1).unshift u2).concurrency
          rw [hcc2]
          exact hc)
      (by show ((s.unshift u1).unshift u2).running = []
          exact hrun2)
    show (runAll (Sys.schedule
      { (s.unshift u1).unshift u2 with paused := false })).startLog = _
    rw [hh.1]
    show ((s.unshift u1).unshift u2).startLog
        ++ (((s.unshift u1).unshift u2).pending).map DeferCallback.name = _
    rw [hsl2, hpend]

/-- C8, witness: with concurrency 1, two pushes while paused, then two
unshifts, resuming runs the tasks in the order second unshift, first
unshift, then the pushed tasks FIFO. -/
theorem claim8_witness :
    (runAll ((((({ paused := true, pending := [taskA, taskB], concurrency := 1 } : Sys String VRec)).unshift (DeferCallback.fn "u1" (Except.ok ⟨5⟩))).unshift (DeferCallback.fn "u2" (Except.ok ⟨6⟩))).resume)).startLog
      = ["u2", "u1", "A", "B"] := by
  have h := claim8_unshift_order
    ({ paused := true, pending := [taskA, taskB], concurrency := 1 } :
      Sys String VRec)
    (DeferCallback.fn "u1" (Except.ok ⟨5⟩))
    (DeferCallback.fn "u2" (Except.ok ⟨6⟩))
    rfl rfl (by decide)
  rw [h.2.2]
  rfl

/-- C9: size counts the admitted not-yet-started tasks: it is 0 on a fresh
queue, goes up by 1 per push or unshift while paused, and after resume it
drops by the number of tasks the executor starts; isIdle is true on a fresh
queue, false the moment a task is admitted, and true again once a full run
settles every admitted task. -/
theorem claim9_size_isIdle (o : Option Nat) (s : Sys ε α)
    (t : DeferCallback ε α) :
    (newDeferQueue ε α o).size = 0
    ∧ (newDeferQueue ε α o).isIdle = true
    ∧ (s.paused = true →
        (s.push t).size = s.size + 1 ∧ (s.unshift t).size = s.size + 1)
    ∧ (s.push t).isIdle = false
    ∧ (s.resume).size = s.size - (s.concurrency - s.running.length)
    ∧ (s.paused = false → 1 ≤ s.concurrency →
        (s.running.length = s.concurrency ∨ s.pending = []) →
        (runAll s).isIdle = true) := by
  refine ⟨rfl, rfl, ?_, ?_, ?_, ?_⟩
  · intro hpause
    constructor
    · rw [push_paused s t hpause]
      show (s.pending ++ [t]).length = s.pending.length + 1
      simp
    · rw [unshift_paused s t hpause]
      show (t :: s.pending).length = s.pending.length + 1
      simp
  · have htot := push_total s t
    cases hps : (s.push t).pending with
    | cons a l => simp [Sys.isIdle, hps]
    | nil =>
      cases hrs : (s.push t).running with
      | cons a l => simp [Sys.isIdle, hps, hrs]
      | nil =>
        rw [hps, hrs] at htot
        simp at htot
  · show (Sys.schedule { s with paused := false }).pending.length
        = s.pending.length - (s.concurrency - s.running.length)
    rw [schedule_spec _ rfl]
    simp
  · intro hpause hcon hsat
    have H := settleAll_spec (s.pending.length + s.running.length) s hpause
      hcon hsat (le_refl _)
    show ((settleAll (s.pending.length + s.running.length) s).pending.isEmpty
      && (settleAll (s.pending.length + s.running.length) s).running.isEmpty)
      = true
    rw [H.2.1, H.2.2]
    rfl

/-- C9, witness: a fresh queue has size 0, and pushing onto a paused queue
holding one task makes the size 2. -/
theorem claim9_witness :
    (newDeferQueue String VRec (some 3)).size = 0
    ∧ (({ paused := true, pending := [taskA] } : Sys String VRec).push
        taskB).size = 2 := by
  have h := claim9_size_isIdle (some 3)
    ({ paused := true, pending := [taskA] } : Sys String VRec) taskB
  refine ⟨h.1, ?_⟩
  rw [(h.2.2.1 rfl).1]
  rfl

/-- C10: the queue stays fully usable after kill: a subsequent push admits
and starts the task, its completion resolves the notifier created after
the kill with the exact task outcome, and the drain hook assigned before
the kill (and fired once by the kill itself) fires again on the subsequent
natural drain. -/
theorem claim10_usable_after_kill (s : Sys ε α) (t : DeferCallback ε α)
    (k : Nat) (hr : s.running = []) (hp : s.paused = false)
    (hc : 1 ≤ s.concurrency) (hfast : s.fastDrain = some k)
    (hsaved : s.savedDrain = some k) (hnot : s.engine.notifiers = []) :
    ((s.kill.createNotifier).1.push t).pending = []
    ∧ ((s.kill.createNotifier).1.push t).running = [t]
    ∧ (((s.kill.createNotifier).1.push t).settle).engine.resolutions
        = s.engine.resolutions ++ [((s.kill.createNotifier).2, settledOf t)]
    ∧ (((s.kill.createNotifier).1.push t).settle).drainedLog
        = s.drainedLog ++ [k, k]
    ∧ (((s.kill.createNotifier).1.push t).settle).running = [] := by
  obtain ⟨eng, pend, run, pstate, c, fd, sd, dl, sl⟩ := s
  obtain ⟨nid0, nots, res, rej, oa, tca, taa, oel, tcl, tal⟩ := eng
  simp only at hr hp hc hfast hsaved hnot ⊢
  subst hr
  subst hp
  subst hfast
  subst hsaved
  subst hnot
  rcases c with _ | c
  · exact absurd hc (by omega)
  cases taa with
  | false =>
    cases hti : t.invoke with
    | ok r =>
      simp [Sys.kill, invokeDrain, Sys.createNotifier, createNotifier,
        Sys.push, Sys.schedule, scheduleFuel, Sys.settle, notifierHandler,
        worker, settledOf, hti]
    | error e =>
      simp [Sys.kill, invokeDrain, Sys.createNotifier, createNotifier,
        Sys.push, Sys.schedule, scheduleFuel, Sys.settle, notifierHandler,
        worker, settledOf, hti]
  | true =>
    cases hti : t.invoke with
    | ok r =>
      simp [Sys.kill, invokeDrain, Sys.createNotifier, createNotifier,
        Sys.push, Sys.schedule, scheduleFuel, Sys.settle, notifierHandler,
        worker, settledOf, hti]
    | error e =>
      simp [Sys.kill, invokeDrain, Sys.createNotifier, createNotifier,
        Sys.push, Sys.schedule, scheduleFuel, Sys.settle, notifierHandler,
        worker, settledOf, hti]

/-- C10, witness: killing a queue with drain hook 4 and then pushing task A
runs A, resolves the post-kill notifier fulfilled with the A outcome, and
fires the drain hook once during the kill and once at the natural drain. -/
theorem claim10_witness :
    ((((({ fastDrain := some 4, savedDrain := some 4 } : Sys String VRec)).kill.createNotifier).1.push taskA).settle).engine.resolutions
      = [(0, SettledResult.fulfilled ⟨"A", some ⟨1⟩⟩)]
    ∧ ((((({ fastDrain := some 4, savedDrain := some 4 } : Sys String VRec)).kill.createNotifier).1.push taskA).settle).drainedLog
      = [4, 4] := by
  have h := claim10_usable_after_kill
    ({ fastDrain := some 4, savedDrain := some 4 } : Sys String VRec)
    taskA 4 rfl rfl (by decide) rfl rfl rfl
  refine ⟨?_, ?_⟩
  · rw [h.2.2.1]
    rfl
  · rw [h.2.2.2.1]
    rfl

end Defer
